import Mathlib

/-!
Verification of the cockpit bias-image dataset experiments and the camera
post-processing chain.

The development shallowly embeds the following pieces of the source:

* `cockpit/experiment/dsDataCollection.py` — `BiasImageDatasetExperiment`:
  `__init__` (the `applied_steps = np.linspace(...)` and `numReps`
  computation), `makeBiasPolytope`, `generateAbb`, `executeRep`.
* `cockpit/experiment/dsDataHWAT.py` — `ATBiasImageDatasetExperiment`:
  the same members in their variant forms.
* `cockpit/devices/microscopeCamera.py` — `_PostProcessor`,
  `MicroscopeCamera.addPostProcessor`, `removePostProcessor`, `getImageSize`.
* `cockpit/devices/aurox.py` — `Clarity._section_data` and the sectioning
  shape function registered by `Clarity._on_section`.

Numeric conventions: Python floats are embedded as exact rationals (ℚ); all
arithmetic appearing in the claims is exact in floating point at the inputs
used, except where a rounding-sensitive spot is called out explicitly
(the `%.1f` rendering in the file prefixes, see `fmt1`).  Strings are
embedded as `List Char`.
-/

namespace Cockpit

/-- An aberration amplitude vector (`np.ndarray` of floats, exact model). -/
abbrev Vec := List ℚ

/-- Elementwise update `v[i] += s` on a vector: in-place elementwise add at index `i`
(`plus_offset[axis] += 1 * step` / `minus_offset[axis] -= 1 * step`).
All call sites index within bounds; out-of-range `set` is the identity. -/
def addAt (v : Vec) (i : ℕ) (s : ℚ) : Vec := v.set i (v.getD i 0 + s)

/-- Embedding of `np.linspace(start, stop, num)`: `num` evenly spaced samples over
`[start, stop]`, endpoints included.  `num = 0` gives `[]`, `num = 1`
gives `[start]` (numpy's behaviour), otherwise sample `i` is
`start + i * (stop - start) / (num - 1)` (exact in ℚ; numpy's floating
computation agrees at the inputs appearing in the claims). -/
def linspace (start stop : ℚ) (num : ℕ) : List ℚ :=
  if num = 0 then []
  else if num = 1 then [start]
  else (List.range num).map (fun i => start + (i : ℚ) * ((stop - start) / ((num : ℚ) - 1)))

/-- Embedding of `makeBiasPolytope(start_aberrations, offset_axes, nk, steps=(1,))` from
both experiment files (the two copies are textually identical): the base
vector `beta` (`np.zeros(nk)` overwritten by `beta[:] = start_aberrations`),
followed, for each axis of `offset_axes` in order, by the `+step`
perturbations for each step in order and then the `-step` perturbations
for each step in order. -/
def makeBiasPolytope (start_aberrations : Vec) (offset_axes : List ℕ) (nk : ℕ)
    (steps : List ℚ) : List Vec :=
  let beta : Vec := (List.range nk).map (fun i => start_aberrations.getD i 0)
  beta :: offset_axes.foldr
    (fun axis acc =>
      (steps.map (fun step => addAt beta axis step) ++
       steps.map (fun step => addAt beta axis (-step))) ++ acc)
    []

/-- Decimal digits of `n`, least significant first, computed with explicit
fuel so that the kernel can evaluate it. -/
def natDigitsRev : ℕ → ℕ → List ℕ
  | 0, _ => []
  | _ + 1, 0 => []
  | fuel + 1, n + 1 => (n + 1) % 10 :: natDigitsRev fuel ((n + 1) / 10)

/-- The decimal rendering of a natural number, as Python `str` / f-string
formatting produces it. -/
def natChars (n : ℕ) : List Char :=
  if n = 0 then ['0'] else ((natDigitsRev n n).map Nat.digitChar).reverse

/-- The magnitude of `q` in tenths, rounded to nearest: `⌊|q| * 10 + 1/2⌋`
computed on the numerator and denominator by integer division (the
operand is nonnegative, so truncating division is the floor). -/
def roundTenths (q : ℚ) : ℕ :=
  let x : ℚ := |q| * 10
  ((2 * x.num + (x.den : ℤ)) / (2 * (x.den : ℤ))).toNat

/-- Embedding of Python `f"{q:.1f}"`: fixed-point rendering with one digit after the
point.  The magnitude is rounded to the nearest tenth (half upward here;
Python rounds the underlying double to nearest/half-even — the two agree
away from exact ties, and no input in this development is a tie).  A
negative value keeps its sign even when the rounded magnitude is zero
(`-0.0`), as in Python. -/
def fmt1 (q : ℚ) : List Char :=
  let t : ℕ := roundTenths q
  (if q < 0 then ['-'] else []) ++ natChars (t / 10) ++ '.' :: [Nat.digitChar (t % 10)]

/-- Embedding of `f"A{area}A{applied_abb}S{step:.1f}_"` (dsDataCollection.py, line 165). -/
def fprefixC (area applied_abb : ℕ) (step : ℚ) : List Char :=
  'A' :: natChars area ++ 'A' :: natChars applied_abb ++ 'S' :: fmt1 step ++ ['_']

/-- Embedding of `f"R{areas}A{area}A{applied_abb}S{step:.1f}_"` (dsDataHWAT.py, line 148). -/
def fprefixH (areas area applied_abb : ℕ) (step : ℚ) : List Char :=
  'R' :: natChars areas ++ 'A' :: natChars area ++ 'A' :: natChars applied_abb ++
    'S' :: fmt1 step ++ ['_']

/-- One item yielded by `generateAbb`: `(biaslist, fprefix, newarea)`. -/
structure SweepItem where
  biaslist : List Vec
  fpre : List Char
  newarea : Bool
deriving DecidableEq

/-- The innermost `for step in applied_steps:` loop of `generateAbb`.
Threads the mutable `start_aberrations` vector and the `newarea` flag
(reset to `False` after each yield); `pfx` abstracts the f-string (the two
variants differ only there and in the area-loop flag handling). -/
def stepLoop (pfx : ℕ → ℚ → List Char) (bias_modes : List ℕ) (applied_abb : ℕ) :
    List ℚ → Vec → Bool → List SweepItem × Vec × Bool
  | [], start, na => ([], start, na)
  | step :: rest, start, na =>
    let start' := start.set applied_abb step
    let item : SweepItem :=
      ⟨makeBiasPolytope start' bias_modes start'.length [1], pfx applied_abb step, na⟩
    let r := stepLoop pfx bias_modes applied_abb rest start' false
    (item :: r.1, r.2)

/-- The `for applied_abb in applied_modes:` loop of `generateAbb`. -/
def modeLoop (pfx : ℕ → ℚ → List Char) (bias_modes : List ℕ) (applied_steps : List ℚ) :
    List ℕ → Vec → Bool → List SweepItem × Vec × Bool
  | [], start, na => ([], start, na)
  | m :: ms, start, na =>
    let r₁ := stepLoop pfx bias_modes m applied_steps start na
    let r₂ := modeLoop pfx bias_modes applied_steps ms r₁.2.1 r₁.2.2
    (r₁.1 ++ r₂.1, r₂.2)

/-- The `for area in range(areas):` loop of dsDataCollection's
`generateAbb`: `newarea = True` is executed unconditionally after each
area's inner loops, so the next area starts with the flag raised. -/
def areaLoopC (bias_modes applied_modes : List ℕ) (applied_steps : List ℚ) :
    ℕ → ℕ → Vec → Bool → List SweepItem
  | 0, _, _, _ => []
  | k + 1, area, start, na =>
    let r := modeLoop (fun m s => fprefixC area m s) bias_modes applied_steps
      applied_modes start na
    r.1 ++ areaLoopC bias_modes applied_modes applied_steps k (area + 1) r.2.1 true

/-- The `for area in range(areas):` loop of dsDataHWAT's `generateAbb`:
`if area: newarea = True` runs at the start of each area body. -/
def areaLoopH (areasTotal : ℕ) (bias_modes applied_modes : List ℕ)
    (applied_steps : List ℚ) :
    ℕ → ℕ → Vec → Bool → List SweepItem
  | 0, _, _, _ => []
  | k + 1, area, start, na =>
    let na' := if area = 0 then na else true
    let r := modeLoop (fun m s => fprefixH areasTotal area m s) bias_modes applied_steps
      applied_modes start na'
    r.1 ++ areaLoopH areasTotal bias_modes applied_modes applied_steps k (area + 1)
      r.2.1 r.2.2

/-- Embedding of `np.max` of a list of mode indices (all call sites pass a non-empty
tuple, for which the fold with default 0 is the true maximum). -/
def maxIdx (l : List ℕ) : ℕ := l.foldr Nat.max 0

/-- Embedding of `start_aberrations = np.zeros(np.max((np.max(bias_modes), np.max(applied_modes))) + 1)`. -/
def startVec (bias_modes applied_modes : List ℕ) : Vec :=
  List.replicate (Nat.max (maxIdx bias_modes) (maxIdx applied_modes) + 1) 0

/-- Embedding of `BiasImageDatasetExperiment.generateAbb`, run to completion: the list
of all yielded `(biaslist, fprefix, newarea)` items. -/
def generateAbbC (bias_modes applied_modes : List ℕ) (applied_steps : List ℚ)
    (areas : ℕ) : List SweepItem :=
  areaLoopC bias_modes applied_modes applied_steps areas 0
    (startVec bias_modes applied_modes) false

/-- Embedding of `ATBiasImageDatasetExperiment.generateAbb`, run to completion. -/
def generateAbbH (bias_modes applied_modes : List ℕ) (applied_steps : List ℚ)
    (areas : ℕ) : List SweepItem :=
  areaLoopH areas bias_modes applied_modes applied_steps areas 0
    (startVec bias_modes applied_modes) false

/-- Embedding of `self.numReps = len(applied_steps) * areas` — dsDataCollection.py,
line 57, with `applied_steps = np.linspace(-abb_magnitude, abb_magnitude,
applied_step)` and `areas = numReps` (the constructor argument). -/
def numRepsC (abb_magnitude : ℚ) (applied_step : ℕ) (areas : ℕ) : ℕ :=
  (linspace (-abb_magnitude) abb_magnitude applied_step).length * areas

/-- Embedding of `self.numReps = len(applied_steps) * len(applied_modes) * areas` —
dsDataHWAT.py, line 64. -/
def numRepsH (abb_magnitude : ℚ) (applied_step : ℕ) (applied_modes : List ℕ)
    (areas : ℕ) : ℕ :=
  (linspace (-abb_magnitude) abb_magnitude applied_step).length *
    applied_modes.length * areas

/-! ### `BiasImageDatasetExperiment.executeRep`

`executeRep` interacts with hardware through two effectful calls per bias
vector: `aodev.proxy.set_phase(abb)` (wrapped in `try/except` that only
sets the `dm_set_failure` flag) and the capture wait
`events.executeAndWaitForOrTimeout(...)` (returns a frame payload or
`None`; `None` makes the code `raise TimeoutError` at once).  These are
embedded as oracles indexed by the position of the bias vector in
`biaslist`: `setOk i = false` means the `i`-th `set_phase` call raises,
and `cap i` is the `i`-th capture result (`none` = timeout).  The frame
type is an arbitrary type `F`. -/

/-- Outcome of one repetition of `executeRep`. -/
structure RepOutcome (F : Type) where
  /-- Frames appended to `imlist`, in capture order. -/
  imlist : List F
  /-- How many capture waits were performed. -/
  captureAttempts : ℕ
  /-- The `dm_set_failure` diagnostic flag. -/
  dmSetFailure : Bool
  /-- Set iff the `raise TimeoutError` line ran (aborting the rep). -/
  timedOut : Bool
  /-- The frame list written by `imageio.mimwrite`, or `none` if the rep
  aborted before reaching the write. -/
  savedFile : Option (List F)

/-- The `for abb in biaslist:` loop of `executeRep` (dsDataCollection.py,
lines 95–114), returning `(imlist, capture count, dm_set_failure flag,
timed out)`. -/
def captureLoop {A F : Type} (setOk : ℕ → Bool) (cap : ℕ → Option F) :
    List A → ℕ → Bool → List F × ℕ × Bool × Bool
  | [], _, dm => ([], 0, dm, false)
  | _ :: rest, i, dm =>
    let dm' := if setOk i then dm else true
    match cap i with
    | some f =>
      let r := captureLoop setOk cap rest (i + 1) dm'
      (f :: r.1, r.2.1 + 1, r.2.2)
    | none => ([], 1, dm', true)

/-- Embedding of `BiasImageDatasetExperiment.executeRep`, restricted to one repetition's
bias list: runs the capture loop and, only if no capture timed out,
reaches the `imageio.mimwrite` call with the accumulated `imlist`. -/
def executeRep {A F : Type} (biaslist : List A) (setOk : ℕ → Bool)
    (cap : ℕ → Option F) : RepOutcome F :=
  let r := captureLoop setOk cap biaslist 0 false
  { imlist := r.1
    captureAttempts := r.2.1
    dmSetFailure := r.2.2.1
    timedOut := r.2.2.2
    savedFile := if r.2.2.2 then none else some r.1 }

/-! ### `MicroscopeCamera` post-processing chain

`_PostProcessor` is a dataclass of `priority: int`, `f_data` and
`f_shape` (callables).  Python compares callables by identity and the
dataclass-generated `==` compares the three fields, so the two function
slots are embedded as values of arbitrary types `D` and `S`; where a claim
needs to apply `f_shape`, `S` is instantiated with `(ℕ × ℕ) → ℕ × ℕ`. -/

/-- The `_PostProcessor` dataclass. -/
structure PostProcessor (D S : Type) where
  priority : ℤ
  f_data : D
  f_shape : S
deriving DecidableEq

/-- Insert `x` after every element whose priority is `≤ x.priority`:
one step of a stable sort on an accumulator. -/
def insertPP {D S : Type} (x : PostProcessor D S) :
    List (PostProcessor D S) → List (PostProcessor D S)
  | [] => [x]
  | y :: ys => if y.priority ≤ x.priority then y :: insertPP x ys else x :: y :: ys

/-- Embedding of Python `list.sort(key=lambda x: x.priority)`: a stable sort by
priority (equal keys keep their relative order). -/
def pySort {D S : Type} (l : List (PostProcessor D S)) : List (PostProcessor D S) :=
  l.foldl (fun acc x => insertPP x acc) []

/-- Embedding of `MicroscopeCamera.addPostProcessor`: append the new unit and re-sort
the chain stably by priority. -/
def addPostProcessor {D S : Type} (chain : List (PostProcessor D S))
    (p : PostProcessor D S) : List (PostProcessor D S) :=
  pySort (chain ++ [p])

/-- A chain built by successive `addPostProcessor` calls starting from the
empty `_post_processors` list of `__init__`. -/
def chainOfAdds {D S : Type} (ps : List (PostProcessor D S)) :
    List (PostProcessor D S) :=
  ps.foldl addPostProcessor []

/-- Embedding of `MicroscopeCamera.getImageSize`: the base size
`(roi.width // binning.h, roi.height // binning.v)` folded through every
post-processor's `f_shape` in chain order. -/
def getImageSize {D : Type} (roiW roiH binH binV : ℕ)
    (chain : List (PostProcessor D ((ℕ × ℕ) → ℕ × ℕ))) : ℕ × ℕ :=
  chain.foldl (fun size pp => pp.f_shape size) (roiW / binH, roiH / binV)

/-- The Boolean matching predicate of `removePostProcessor`: priority must
match, and when `f_data` (resp. `f_shape`) is given, that field must
match too. -/
def ppMatches {D S : Type} [DecidableEq D] [DecidableEq S] (priority : ℤ)
    (fd : Option D) (fs : Option S) (p : PostProcessor D S) : Bool :=
  p.priority = priority &&
    (match fd with | none => true | some f => p.f_data = f) &&
    (match fs with | none => true | some f => p.f_shape = f)

/-- Embedding of `MicroscopeCamera.removePostProcessor`: filter the chain by priority,
then (optionally) by the data and shape functions, and
`self._post_processors.remove(candidates[0])`.  `candidates[0]` on an
empty candidate list raises `IndexError`, embedded as `none`;
`list.remove` deletes the first element `==`-equal to its argument. -/
def removePostProcessor {D S : Type} [DecidableEq D] [DecidableEq S]
    (chain : List (PostProcessor D S)) (priority : ℤ) (fd : Option D)
    (fs : Option S) : Option (List (PostProcessor D S)) :=
  let c₁ := chain.filter (fun p => p.priority = priority)
  let c₂ := match fd with
    | none => c₁
    | some f => c₁.filter (fun p => p.f_data = f)
  let c₃ := match fs with
    | none => c₂
    | some f => c₂.filter (fun p => p.f_shape = f)
  match c₃ with
  | [] => none
  | x :: _ => some (chain.erase x)

/-! ### `Clarity` sectioning (aurox.py) -/

/-- Embedding of `Clarity._section_data`: read the filter position; when it is `None`
(turret indeterminate/moving) return the data unchanged, otherwise run the
channel's processor.  `procs i` abstracts
`self._processors[fpos].process(data).get()`. -/
def sectionData {F : Type} (procs : ℕ → F → F) (fpos : Option ℕ) (data : F) : F :=
  match fpos with
  | none => data
  | some i => procs i data

/-- The shape function `lambda shape: (shape[0] // 2, shape[1])` that
`Clarity._on_section` registers together with `_section_data`. -/
def sectionShapeFn (shape : ℕ × ℕ) : ℕ × ℕ := (shape.1 / 2, shape.2)

/-- Constant `PRIORITY_SECTIONING` (aurox.py, line 38). -/
def PRIORITY_SECTIONING : ℤ := 100

/-! ## Theorems -/

/-- Rebuilding a list from its `getD` values is the identity: `np.zeros(nk)`
overwritten by `beta[:] = start` equals `start` when `nk = start.length`. -/
theorem map_getD_range (l : Vec) :
    (List.range l.length).map (fun i => l.getD i 0) = l := by
  induction l with
  | nil => rfl
  | cons x xs ih =>
    have h : ∀ i : ℕ, (x :: xs).getD (i + 1) 0 = xs.getD i 0 := fun i => rfl
    calc (List.range (x :: xs).length).map (fun i => (x :: xs).getD i 0)
        = x :: (List.range xs.length).map (fun i => (x :: xs).getD (i + 1) 0) := by
          rw [List.length_cons, List.range_succ_eq_map, List.map_cons, List.map_map]
          rfl
      _ = x :: xs := by
          rw [show ((List.range xs.length).map fun i => (x :: xs).getD (i + 1) 0)
              = (List.range xs.length).map fun i => xs.getD i 0 from
            List.map_congr_left (fun i _ => h i), ih]

/-- The polytope in explicit `bind` form, with the base vector restored. -/
theorem makeBiasPolytope_eq_bind (start : Vec) (axes : List ℕ) (steps : List ℚ) :
    makeBiasPolytope start axes start.length steps
      = start :: axes.flatMap (fun a =>
          steps.map (fun s => addAt start a s) ++ steps.map (fun s => addAt start a (-s))) := by
  unfold makeBiasPolytope
  rw [map_getD_range]
  induction axes with
  | nil => rfl
  | cons a as ih =>
    simpa [List.flatMap_cons] using congrArg (List.tail ·) ih

/-- C3: `makeBiasPolytope` returns exactly `1 + 2*len(axes)*len(steps)`
vectors: the base vector first, then for each axis in order the `+step`
perturbations (one per step, in step order) followed by the `-step`
perturbations, each perturbation touching that axis only; in particular two
axes and `steps = (1,)` give base, axis0+1, axis0-1, axis1+1, axis1-1. -/
theorem makeBiasPolytope_spec (start : Vec) (axes : List ℕ) (steps : List ℚ) :
    (makeBiasPolytope start axes start.length steps).length
        = 1 + 2 * (axes.length * steps.length)
    ∧ makeBiasPolytope start axes start.length steps
        = start :: axes.flatMap (fun a =>
            steps.map (fun s => addAt start a s) ++ steps.map (fun s => addAt start a (-s)))
    ∧ ∀ a₀ a₁ : ℕ, makeBiasPolytope start [a₀, a₁] start.length [1]
        = [start, addAt start a₀ 1, addAt start a₀ (-1),
           addAt start a₁ 1, addAt start a₁ (-1)] := by
  refine ⟨?_, makeBiasPolytope_eq_bind start axes steps, ?_⟩
  · rw [makeBiasPolytope_eq_bind]
    have htail : ∀ axs : List ℕ,
        (axs.flatMap (fun a => steps.map (fun s => addAt start a s) ++
          steps.map (fun s => addAt start a (-s)))).length
          = 2 * (axs.length * steps.length) := by
      intro axs
      induction axs with
      | nil => simp
      | cons a as ih =>
        simp only [List.flatMap_cons, List.length_append, List.length_map,
          List.length_cons, ih]
        ring
    simp only [List.length_cons, htail axes]
    omega
  · intro a₀ a₁
    rw [makeBiasPolytope_eq_bind]
    rfl

/-- C8: `np.linspace(-magnitude, magnitude, 1)` is the single value
`-magnitude`, so a sweep with `applied_step = 1` uses exactly one step
value per applied mode, equal to `-abb_magnitude` (the inner step loop of
`generateAbb` then yields exactly one item per applied mode). -/
theorem linspace_single_sample (m : ℚ) :
    linspace (-m) m 1 = [-m]
    ∧ (linspace (-m) m 1).length = 1
    ∧ ∀ (pfx : ℕ → ℚ → List Char) (bm : List ℕ) (mode : ℕ) (start : Vec) (na : Bool),
        ((stepLoop pfx bm mode (linspace (-m) m 1) start na).1).length = 1 := by
  refine ⟨rfl, rfl, fun pfx bm mode start na => rfl⟩

/-- C1 (code bug): dsDataCollection's constructor sets
`numReps = len(applied_steps) * areas`, dropping the `len(applied_modes)`
factor; with `abb_magnitude = 5`, `applied_step = 5`,
`applied_modes = (4, 5)`, `areas = 1` it yields 5 while the exact product
(and dsDataHWAT's value) is 10. -/
theorem numReps_product_bug :
    numRepsC 5 5 1 = 5
    ∧ numRepsH 5 5 [4, 5] 1 = 10
    ∧ (linspace (-(5 : ℚ)) 5 5).length * ([4, 5] : List ℕ).length * 1 = 10
    ∧ numRepsC 5 5 1 ≠ (linspace (-(5 : ℚ)) 5 5).length * ([4, 5] : List ℕ).length * 1 := by
  refine ⟨rfl, rfl, rfl, by decide⟩

/-- C10: when the filter-position read returns `None` (turret moving),
`_section_data` returns the input frame unchanged and never consults a
per-channel processor, so its output shape is the input shape — not the
`(width // 2, height)` that the shape function registered by `_on_section`
predicts (the two differ for any positive width). -/
theorem sectionData_indeterminate_passthrough :
    (∀ (F : Type) (procs : ℕ → F → F) (data : F), sectionData procs none data = data)
    ∧ (∀ shape : ℕ × ℕ, sectionShapeFn shape = (shape.1 / 2, shape.2))
    ∧ ∀ w h : ℕ, 0 < w → (w, h) ≠ sectionShapeFn (w, h) := by
  refine ⟨fun F procs data => rfl, fun shape => rfl, ?_⟩
  intro w h hw hEq
  have h1 : w = w / 2 := congrArg Prod.fst hEq
  have h2 : w / 2 < w := Nat.div_lt_self hw (by norm_num)
  omega

/-- Witness for `sectionData_indeterminate_passthrough` at width 2. -/
theorem sectionData_indeterminate_passthrough_witness :
    (0 : ℕ) < 2 ∧ ((2 : ℕ), (3 : ℕ)) ≠ sectionShapeFn (2, 3) :=
  ⟨by decide, sectionData_indeterminate_passthrough.2.2 2 3 (by decide)⟩

/-- Characterization of the `executeRep` capture loop: it times out iff
some capture in range returns `none`; with no timeout it performs one
capture per bias vector; at the first failing index `j` it stops after
`j + 1` capture attempts having accumulated `j` frames. -/
theorem captureLoop_spec {A F : Type} (setOk : ℕ → Bool) (cap : ℕ → Option F) :
    ∀ (l : List A) (i : ℕ) (dm : Bool),
      ((captureLoop setOk cap l i dm).2.2.2 = false ↔ ∀ j < l.length, cap (i + j) ≠ none)
      ∧ ((∀ j < l.length, cap (i + j) ≠ none) →
          (captureLoop setOk cap l i dm).2.1 = l.length
          ∧ (captureLoop setOk cap l i dm).1.length = l.length)
      ∧ ∀ j < l.length, cap (i + j) = none → (∀ k < j, cap (i + k) ≠ none) →
          (captureLoop setOk cap l i dm).2.2.2 = true
          ∧ (captureLoop setOk cap l i dm).2.1 = j + 1
          ∧ (captureLoop setOk cap l i dm).1.length = j := by
  intro l
  induction l with
  | nil =>
    intro i dm
    refine ⟨by simp [captureLoop], by simp [captureLoop], ?_⟩
    intro j hj
    simp at hj
  | cons a rest ih =>
    intro i dm
    obtain ⟨ih1, ih2, ih3⟩ := ih (i + 1) (!setOk i || dm)
    cases hc : cap i with
    | some f =>
      have hshift : ∀ (P : Option F → Prop),
          (∀ j < (a :: rest).length, P (cap (i + j))) ↔
            P (cap i) ∧ ∀ j < rest.length, P (cap (i + 1 + j)) := by
        intro P
        constructor
        · intro h
          refine ⟨by simpa using h 0 (by simp), fun j hj => ?_⟩
          have := h (j + 1) (by simpa using Nat.succ_lt_succ hj)
          rw [show i + 1 + j = i + (j + 1) from by omega]
          exact this
        · rintro ⟨h0, h⟩ j hj
          match j with
          | 0 => simpa using h0
          | j + 1 =>
            have := h j (by simpa using Nat.lt_of_succ_lt_succ hj)
            rw [show i + (j + 1) = i + 1 + j from by omega]
            exact this
      refine ⟨?_, ?_, ?_⟩
      · simp only [hshift (fun o => o ≠ none)]
        simp [captureLoop, hc, ih1]
      · intro h
        rw [hshift (fun o => o ≠ none)] at h
        have := ih2 h.2
        simp [captureLoop, hc]
        omega
      · intro j hj hnone hfirst
        match j with
        | 0 => simp [hc] at hnone
        | j + 1 =>
          have hj' : j < rest.length := by simpa using Nat.lt_of_succ_lt_succ hj
          have hnone' : cap (i + 1 + j) = none := by
            rw [show i + 1 + j = i + (j + 1) from by omega]; exact hnone
          have hfirst' : ∀ k < j, cap (i + 1 + k) ≠ none := by
            intro k hk
            rw [show i + 1 + k = i + (k + 1) from by omega]
            exact hfirst (k + 1) (by omega)
          have := ih3 j hj' hnone' hfirst'
          simp [captureLoop, hc]
          exact ⟨this.1, this.2.1, this.2.2⟩
    | none =>
      refine ⟨?_, ?_, ?_⟩
      · simp only [captureLoop, hc]
        constructor
        · intro h; simp at h
        · intro h
          exact absurd hc (by simpa using h 0 (by simp))
      · intro h
        exact absurd hc (by simpa using h 0 (by simp))
      · intro j hj hnone hfirst
        have hj0 : j = 0 := by
          by_contra hne
          exact hfirst 0 (by omega) hc
        subst hj0
        simp [captureLoop, hc]

/-- C2: a capture timeout on any bias vector makes `executeRep` raise
immediately: the repetition's file is written iff every bias vector in the
list produced a frame, and at the first failing index `i` the loop stops
after attempt `i + 1` with only the `i` earlier frames collected and
nothing persisted. -/
theorem executeRep_timeout_aborts (A F : Type) (biaslist : List A)
    (setOk : ℕ → Bool) (cap : ℕ → Option F) :
    ((executeRep biaslist setOk cap).savedFile ≠ none ↔
        ∀ i < biaslist.length, cap i ≠ none)
    ∧ ∀ i < biaslist.length, cap i = none → (∀ j < i, cap j ≠ none) →
        (executeRep biaslist setOk cap).timedOut = true
        ∧ (executeRep biaslist setOk cap).savedFile = none
        ∧ (executeRep biaslist setOk cap).captureAttempts = i + 1
        ∧ (executeRep biaslist setOk cap).imlist.length = i := by
  obtain ⟨h1, _h2, h3⟩ := captureLoop_spec setOk cap biaslist 0 false
  simp only [Nat.zero_add] at h1 h3
  constructor
  · rw [← h1]
    unfold executeRep
    cases hto : (captureLoop setOk cap biaslist 0 false).2.2.2 <;> simp [hto]
  · intro i hi hnone hfirst
    obtain ⟨g1, g2, g3⟩ := h3 i hi hnone hfirst
    unfold executeRep
    simp [g1, g2, g3]

/-- Witness for `executeRep_timeout_aborts`: three bias vectors with the
second capture timing out. -/
theorem executeRep_timeout_aborts_witness :
    1 < ([10, 20, 30] : List ℕ).length
    ∧ (executeRep [10, 20, 30] (fun _ => true)
        (fun i => if i = 1 then (none : Option ℕ) else some i)).timedOut = true
    ∧ (executeRep [10, 20, 30] (fun _ => true)
        (fun i => if i = 1 then (none : Option ℕ) else some i)).savedFile = none
    ∧ (executeRep [10, 20, 30] (fun _ => true)
        (fun i => if i = 1 then (none : Option ℕ) else some i)).captureAttempts = 1 + 1
    ∧ (executeRep [10, 20, 30] (fun _ => true)
        (fun i => if i = 1 then (none : Option ℕ) else some i)).imlist.length = 1 :=
  ⟨by decide,
    (executeRep_timeout_aborts ℕ ℕ [10, 20, 30] (fun _ => true)
      (fun i => if i = 1 then none else some i)).2 1 (by decide) (by decide) (by decide)⟩

/-- The capture loop's frames, attempt count and timeout flag do not
depend on the `set_phase` failure oracle nor on the incoming
`dm_set_failure` flag. -/
theorem captureLoop_indep {A F : Type} (setOk setOk' : ℕ → Bool) (cap : ℕ → Option F) :
    ∀ (l : List A) (i : ℕ) (dm dm' : Bool),
      (captureLoop setOk cap l i dm).1 = (captureLoop setOk' cap l i dm').1
      ∧ (captureLoop setOk cap l i dm).2.1 = (captureLoop setOk' cap l i dm').2.1
      ∧ (captureLoop setOk cap l i dm).2.2.2 = (captureLoop setOk' cap l i dm').2.2.2 := by
  intro l
  induction l with
  | nil => intro i dm dm'; simp [captureLoop]
  | cons a rest ih =>
    intro i dm dm'
    obtain ⟨g1, g2, g3⟩ := ih (i + 1) (!setOk i || dm) (!setOk' i || dm')
    cases hc : cap i with
    | some f => simp [captureLoop, hc, g1, g2, g3]
    | none => simp [captureLoop, hc]

/-- C7: a `set_phase` failure never aborts the repetition — the captured
frames, the number of capture attempts, the timeout status and the
persisted file are all independent of which device writes failed, and when
every capture produces a frame the repetition persists the full frame list
(one frame per bias vector) no matter how many writes failed. -/
theorem executeRep_setphase_nonfatal (A F : Type) (biaslist : List A)
    (setOk setOk' : ℕ → Bool) (cap : ℕ → Option F) :
    (executeRep biaslist setOk cap).imlist = (executeRep biaslist setOk' cap).imlist
    ∧ (executeRep biaslist setOk cap).captureAttempts
        = (executeRep biaslist setOk' cap).captureAttempts
    ∧ (executeRep biaslist setOk cap).timedOut
        = (executeRep biaslist setOk' cap).timedOut
    ∧ (executeRep biaslist setOk cap).savedFile
        = (executeRep biaslist setOk' cap).savedFile
    ∧ ((∀ i < biaslist.length, cap i ≠ none) →
        (executeRep biaslist setOk cap).savedFile
            = some (executeRep biaslist setOk cap).imlist
        ∧ (executeRep biaslist setOk cap).captureAttempts = biaslist.length) := by
  obtain ⟨g1, g2, g3⟩ := captureLoop_indep setOk setOk' cap biaslist 0 false false
  obtain ⟨h1, h2, _h3⟩ := captureLoop_spec setOk cap biaslist 0 false
  simp only [Nat.zero_add] at h1 h2
  refine ⟨?_, ?_, ?_, ?_, ?_⟩
  · unfold executeRep; simp [g1]
  · unfold executeRep; simp [g2]
  · unfold executeRep; simp [g3]
  · unfold executeRep; simp [g1, g3]
  · intro h
    have hto : (captureLoop setOk cap biaslist 0 false).2.2.2 = false := h1.mpr h
    have := h2 h
    unfold executeRep
    simp [hto, this.1]

/-- Witness for `executeRep_setphase_nonfatal`: every device write fails
yet both captures succeed and the file is persisted. -/
theorem executeRep_setphase_nonfatal_witness :
    (∀ i < ([7, 8] : List ℕ).length, (fun j => some (j + 1) : ℕ → Option ℕ) i ≠ none)
    ∧ (executeRep [7, 8] (fun _ => false) (fun j => some (j + 1))).savedFile
        = some (executeRep [7, 8] (fun _ => false) (fun j => some (j + 1))).imlist
    ∧ (executeRep [7, 8] (fun _ => false) (fun j => some (j + 1))).captureAttempts
        = ([7, 8] : List ℕ).length :=
  ⟨by decide,
    (executeRep_setphase_nonfatal ℕ ℕ [7, 8] (fun _ => false) (fun _ => true)
      (fun j => some (j + 1))).2.2.2.2 (by decide)⟩

/-- The sequential filters of `removePostProcessor` coalesce into a single
filter by the full matching predicate, so the function either fails on an
empty candidate list or erases the first filtered element. -/
theorem removePostProcessor_eq_filter (D S : Type) [DecidableEq D] [DecidableEq S]
    (chain : List (PostProcessor D S)) (priority : ℤ) (fd : Option D) (fs : Option S) :
    removePostProcessor chain priority fd fs =
      match chain.filter (fun p => ppMatches priority fd fs p) with
      | [] => none
      | x :: _ => some (chain.erase x) := by
  cases fd with
  | none =>
    cases fs with
    | none =>
      simp only [removePostProcessor]
      have h1 : chain.filter (fun p => decide (p.priority = priority))
          = chain.filter (fun p => ppMatches priority (none : Option D) (none : Option S) p) :=
        List.filter_congr (fun a _ => by
          cases hp : decide (a.priority = priority) <;> simp [ppMatches, hp])
      rw [h1]
    | some g =>
      simp only [removePostProcessor]
      have h1 : (chain.filter (fun p => decide (p.priority = priority))).filter
            (fun p => decide (p.f_shape = g))
          = chain.filter (fun p => ppMatches priority (none : Option D) (some g) p) := by
        rw [List.filter_filter]
        exact List.filter_congr (fun a _ => by
          cases hp : decide (a.priority = priority) <;>
            cases hs : decide (a.f_shape = g) <;> simp [ppMatches, hp, hs])
      rw [h1]
  | some f =>
    cases fs with
    | none =>
      simp only [removePostProcessor]
      have h1 : (chain.filter (fun p => decide (p.priority = priority))).filter
            (fun p => decide (p.f_data = f))
          = chain.filter (fun p => ppMatches priority (some f) (none : Option S) p) := by
        rw [List.filter_filter]
        exact List.filter_congr (fun a _ => by
          cases hp : decide (a.priority = priority) <;>
            cases hd : decide (a.f_data = f) <;> simp [ppMatches, hp, hd])
      rw [h1]
    | some g =>
      simp only [removePostProcessor]
      have h1 : ((chain.filter (fun p => decide (p.priority = priority))).filter
            (fun p => decide (p.f_data = f))).filter (fun p => decide (p.f_shape = g))
          = chain.filter (fun p => ppMatches priority (some f) (some g) p) := by
        rw [List.filter_filter, List.filter_filter]
        exact List.filter_congr (fun a _ => by
          cases hp : decide (a.priority = priority) <;>
            cases hd : decide (a.f_data = f) <;>
              cases hs : decide (a.f_shape = g) <;> simp [ppMatches, hp, hd, hs])
      rw [h1]

/-- A non-empty filter result pins down the first matching element: the
list splits as a prefix of non-matching elements, the head of the filter,
and a tail. -/
theorem filter_head_decomp {α : Type} (p : α → Bool) :
    ∀ (l : List α) (x : α) (xs : List α), l.filter p = x :: xs →
      ∃ l₁ l₂, l = l₁ ++ x :: l₂ ∧ (∀ y ∈ l₁, p y = false) ∧ p x = true := by
  intro l
  induction l with
  | nil => intro x xs h; simp at h
  | cons a t ih =>
    intro x xs h
    cases hp : p a with
    | true =>
      rw [List.filter_cons_of_pos hp] at h
      obtain ⟨rfl, -⟩ : a = x ∧ t.filter p = xs := ⟨(List.cons.injEq _ _ _ _ ▸ h).1,
        (List.cons.injEq _ _ _ _ ▸ h).2⟩
      exact ⟨[], t, rfl, by simp, hp⟩
    | false =>
      rw [List.filter_cons_of_neg (by simp [hp])] at h
      obtain ⟨l₁, l₂, rfl, h1, h2⟩ := ih x xs h
      refine ⟨a :: l₁, l₂, rfl, ?_, h2⟩
      intro y hy
      rcases List.mem_cons.mp hy with rfl | hy'
      · exact hp
      · exact h1 y hy'

/-- C4: `removePostProcessor` removes exactly one element — the first
processor in chain order matching the priority (and, when supplied, the
data and shape functions) — leaving every other processor in place, and
when no processor matches it fails (the `candidates[0]` access raises
rather than silently removing nothing). -/
theorem removePostProcessor_spec (D S : Type) [DecidableEq D] [DecidableEq S]
    (chain : List (PostProcessor D S)) (priority : ℤ) (fd : Option D) (fs : Option S) :
    (removePostProcessor chain priority fd fs = none ↔
        ∀ p ∈ chain, ppMatches priority fd fs p = false)
    ∧ ∀ l, removePostProcessor chain priority fd fs = some l →
        ∃ pre x post, chain = pre ++ x :: post
          ∧ ppMatches priority fd fs x = true
          ∧ (∀ y ∈ pre, ppMatches priority fd fs y = false)
          ∧ l = pre ++ post
          ∧ l.length + 1 = chain.length := by
  rw [removePostProcessor_eq_filter]
  constructor
  · cases hf : chain.filter (fun p => ppMatches priority fd fs p) with
    | nil =>
      simp only [true_iff]
      intro p hp
      by_contra hne
      have : p ∈ chain.filter (fun p => ppMatches priority fd fs p) :=
        List.mem_filter.mpr ⟨hp, by simp at hne ⊢; exact hne⟩
      rw [hf] at this
      simp at this
    | cons x xs =>
      simp only [reduceCtorEq, false_iff, not_forall]
      have hx : x ∈ chain.filter (fun p => ppMatches priority fd fs p) := by
        rw [hf]; exact List.mem_cons_self x xs
      refine ⟨x, (List.mem_filter.mp hx).1, ?_⟩
      have := (List.mem_filter.mp hx).2
      simp at this ⊢
      exact this
  · intro l hl
    cases hf : chain.filter (fun p => ppMatches priority fd fs p) with
    | nil => rw [hf] at hl; simp at hl
    | cons x xs =>
      rw [hf] at hl
      obtain ⟨pre, post, rfl, hpre, hx⟩ := filter_head_decomp _ chain x xs hf
      have hxpre : x ∉ pre := fun hmem => by
        rw [hpre x hmem] at hx
        exact Bool.false_ne_true hx
      have herase : (pre ++ x :: post).erase x = pre ++ post := by
        rw [List.erase_append_right _ hxpre, List.erase_cons_head]
      refine ⟨pre, x, post, rfl, hx, hpre, ?_, ?_⟩
      · have : l = (pre ++ x :: post).erase x := by
          exact (Option.some.injEq _ _ ▸ hl).symm
        rw [this, herase]
      · have : l = pre ++ post := by
          have h' : l = (pre ++ x :: post).erase x := (Option.some.injEq _ _ ▸ hl).symm
          rw [h', herase]
        rw [this]
        simp only [List.length_append, List.length_cons]
        omega

/-- Witness for `removePostProcessor_spec`: a chain of two units with the
same priority; removal by priority alone deletes only the first. -/
theorem removePostProcessor_spec_witness :
    removePostProcessor ([⟨1, 10, 20⟩, ⟨1, 11, 21⟩] : List (PostProcessor ℕ ℕ))
        1 none none = some [⟨1, 11, 21⟩]
    ∧ ∃ pre x post,
        ([⟨1, 10, 20⟩, ⟨1, 11, 21⟩] : List (PostProcessor ℕ ℕ)) = pre ++ x :: post
        ∧ ppMatches 1 none none x = true
        ∧ (∀ y ∈ pre, ppMatches 1 none none y = false)
        ∧ ([⟨1, 11, 21⟩] : List (PostProcessor ℕ ℕ)) = pre ++ post
        ∧ ([⟨1, 11, 21⟩] : List (PostProcessor ℕ ℕ)).length + 1
            = ([⟨1, 10, 20⟩, ⟨1, 11, 21⟩] : List (PostProcessor ℕ ℕ)).length :=
  ⟨by decide,
    (removePostProcessor_spec ℕ ℕ [⟨1, 10, 20⟩, ⟨1, 11, 21⟩] 1 none none).2
      [⟨1, 11, 21⟩] (by decide)⟩

section PostProcessorChain

variable {D S : Type}

/-- Membership in an insertion step. -/
theorem mem_insertPP (x z : PostProcessor D S) :
    ∀ acc : List (PostProcessor D S), z ∈ insertPP x acc ↔ z = x ∨ z ∈ acc := by
  intro acc
  induction acc with
  | nil => simp [insertPP]
  | cons y ys ih =>
    by_cases h : y.priority ≤ x.priority
    · simp only [insertPP, if_pos h, List.mem_cons, ih]
      tauto
    · rw [insertPP, if_neg h]
      exact List.mem_cons

/-- An insertion step is a permutation of consing. -/
theorem insertPP_perm (x : PostProcessor D S) :
    ∀ acc : List (PostProcessor D S), (insertPP x acc).Perm (x :: acc) := by
  intro acc
  induction acc with
  | nil => simp [insertPP]
  | cons y ys ih =>
    by_cases h : y.priority ≤ x.priority
    · rw [insertPP, if_pos h]
      exact (ih.cons y).trans (List.Perm.swap x y ys)
    · rw [insertPP, if_neg h]

/-- An insertion step preserves sortedness by priority. -/
theorem insertPP_sorted (x : PostProcessor D S) :
    ∀ acc : List (PostProcessor D S),
      acc.Sorted (fun a b => a.priority ≤ b.priority) →
      (insertPP x acc).Sorted (fun a b => a.priority ≤ b.priority) := by
  intro acc
  induction acc with
  | nil => intro _; simp [insertPP]
  | cons y ys ih =>
    intro hs
    rw [List.sorted_cons] at hs
    by_cases h : y.priority ≤ x.priority
    · rw [insertPP, if_pos h, List.sorted_cons]
      refine ⟨?_, ih hs.2⟩
      intro b hb
      rcases (mem_insertPP x b ys).mp hb with rfl | hb'
      · exact h
      · exact hs.1 b hb'
    · rw [insertPP, if_neg h, List.sorted_cons]
      refine ⟨?_, List.sorted_cons.mpr hs⟩
      intro b hb
      rcases List.mem_cons.mp hb with rfl | hb'
      · omega
      · exact le_trans (by omega) (hs.1 b hb')

/-- Stability of one insertion step: on a sorted accumulator, filtering at
any priority key commutes with insertion (a new element of that priority
goes to the end of its priority class). -/
theorem insertPP_filter (x : PostProcessor D S) (k : ℤ) :
    ∀ acc : List (PostProcessor D S),
      acc.Sorted (fun a b => a.priority ≤ b.priority) →
      (insertPP x acc).filter (fun p => p.priority = k)
        = if x.priority = k
            then acc.filter (fun p => p.priority = k) ++ [x]
            else acc.filter (fun p => p.priority = k) := by
  intro acc
  induction acc with
  | nil => intro _; by_cases h : x.priority = k <;> simp [insertPP, h]
  | cons y ys ih =>
    intro hs
    rw [List.sorted_cons] at hs
    by_cases h : y.priority ≤ x.priority
    · rw [insertPP, if_pos h]
      by_cases hy : y.priority = k
      · rw [List.filter_cons_of_pos (by simp [hy]), ih hs.2,
          List.filter_cons_of_pos (by simp [hy])]
        by_cases hx : x.priority = k <;> simp [hx]
      · rw [List.filter_cons_of_neg (by simp [hy]), ih hs.2,
          List.filter_cons_of_neg (by simp [hy])]
    · rw [insertPP, if_neg h]
      by_cases hx : x.priority = k
      · rw [List.filter_cons_of_pos (by simp [hx])]
        have hnil : (y :: ys).filter (fun p => p.priority = k) = [] := by
          rw [List.filter_eq_nil_iff]
          intro a ha
          rcases List.mem_cons.mp ha with rfl | ha'
          · simp; omega
          · have := hs.1 a ha'
            simp; omega
        rw [if_pos hx, hnil]
        rfl
      · rw [List.filter_cons_of_neg (by simp [hx]), if_neg hx]

/-- Inserting an element not smaller than anything in the accumulator
appends it. -/
theorem insertPP_append_of_le (x : PostProcessor D S) :
    ∀ acc : List (PostProcessor D S),
      (∀ y ∈ acc, y.priority ≤ x.priority) → insertPP x acc = acc ++ [x] := by
  intro acc
  induction acc with
  | nil => intro _; rfl
  | cons y ys ih =>
    intro h
    rw [insertPP, if_pos (h y (by simp)), ih (fun z hz => h z (by simp [hz]))]
    rfl

/-- The stable sort is sorted. -/
theorem pySort_sorted (l : List (PostProcessor D S)) :
    (pySort l).Sorted (fun a b => a.priority ≤ b.priority) := by
  suffices h : ∀ (l acc : List (PostProcessor D S)),
      acc.Sorted (fun a b => a.priority ≤ b.priority) →
      (l.foldl (fun acc x => insertPP x acc) acc).Sorted
        (fun a b => a.priority ≤ b.priority) by
    exact h l [] (by simp)
  intro l
  induction l with
  | nil => intro acc h; simpa using h
  | cons x xs ih =>
    intro acc h
    exact ih (insertPP x acc) (insertPP_sorted x acc h)

/-- The stable sort is a permutation of its input. -/
theorem pySort_perm (l : List (PostProcessor D S)) : (pySort l).Perm l := by
  suffices h : ∀ (l acc : List (PostProcessor D S)),
      (l.foldl (fun acc x => insertPP x acc) acc).Perm (acc ++ l) by
    simpa using h l []
  intro l
  induction l with
  | nil => intro acc; simp
  | cons x xs ih =>
    intro acc
    refine (ih (insertPP x acc)).trans ?_
    have h1 : (insertPP x acc ++ xs).Perm ((x :: acc) ++ xs) :=
      (insertPP_perm x acc).append_right xs
    refine h1.trans ?_
    simpa using List.perm_middle.symm

/-- Stability of the stable sort: filtering at any priority key gives the
elements of that priority in their original (insertion) order. -/
theorem pySort_filter (k : ℤ) (l : List (PostProcessor D S)) :
    (pySort l).filter (fun p => p.priority = k) = l.filter (fun p => p.priority = k) := by
  suffices h : ∀ (l acc : List (PostProcessor D S)),
      acc.Sorted (fun a b => a.priority ≤ b.priority) →
      (l.foldl (fun acc x => insertPP x acc) acc).filter (fun p => p.priority = k)
        = acc.filter (fun p => p.priority = k) ++ l.filter (fun p => p.priority = k) by
    simpa using h l [] (by simp)
  intro l
  induction l with
  | nil => intro acc _; simp
  | cons x xs ih =>
    intro acc hacc
    rw [List.foldl_cons, ih (insertPP x acc) (insertPP_sorted x acc hacc),
      insertPP_filter x k acc hacc]
    by_cases hx : x.priority = k
    · rw [if_pos hx, List.filter_cons_of_pos (by simp [hx])]
      simp
    · rw [if_neg hx, List.filter_cons_of_neg (by simp [hx])]

/-- Sorting an already-sorted chain is the identity (stability means the
sort cannot even reorder equal priorities). -/
theorem pySort_of_sorted (s : List (PostProcessor D S))
    (hs : s.Sorted (fun a b => a.priority ≤ b.priority)) : pySort s = s := by
  suffices h : ∀ (s acc : List (PostProcessor D S)),
      s.Sorted (fun a b => a.priority ≤ b.priority) →
      (∀ y ∈ acc, ∀ z ∈ s, y.priority ≤ z.priority) →
      s.foldl (fun acc x => insertPP x acc) acc = acc ++ s by
    simpa using h s [] hs (by simp)
  intro s
  induction s with
  | nil => intro acc _ _; simp
  | cons x xs ih =>
    intro acc hs hle
    rw [List.sorted_cons] at hs
    rw [List.foldl_cons, insertPP_append_of_le x acc
      (fun y hy => hle y hy x (by simp)),
      ih (acc ++ [x]) hs.2 ?_]
    · simp
    · intro y hy z hz
      rcases List.mem_append.mp hy with hy' | hy'
      · exact hle y hy' z (by simp [hz])
      · rw [List.mem_singleton.mp hy']
        exact hs.1 z hz

/-- A chain built by repeated `addPostProcessor` calls equals the stable
sort of the insertion sequence. -/
theorem chainOfAdds_eq_pySort (ps : List (PostProcessor D S)) :
    chainOfAdds ps = pySort ps := by
  induction ps using List.reverseRecOn with
  | nil => rfl
  | append_singleton qs x ih =>
    have h1 : chainOfAdds (qs ++ [x]) = addPostProcessor (chainOfAdds qs) x := by
      unfold chainOfAdds
      rw [List.foldl_append]
      rfl
    have h2 : ∀ l : List (PostProcessor D S), pySort (l ++ [x]) = insertPP x (pySort l) := by
      intro l
      unfold pySort
      rw [List.foldl_append]
      rfl
    rw [h1, ih, addPostProcessor, h2, h2,
      pySort_of_sorted (pySort qs) (pySort_sorted qs)]

end PostProcessorChain

/-- C5: after any sequence of `addPostProcessor` calls the chain is the
stable priority sort of the added processors (sorted ascending by
priority, a permutation of the adds, equal priorities kept in insertion
order), so `getImageSize` is the left fold of the shape functions over the
binned ROI base shape in ascending priority order with ties broken by
insertion order — independent of insertion order except for that tie
rule. -/
theorem getImageSize_priority_fold (D : Type)
    (ps : List (PostProcessor D ((ℕ × ℕ) → ℕ × ℕ))) (roiW roiH binH binV : ℕ) :
    chainOfAdds ps = pySort ps
    ∧ getImageSize roiW roiH binH binV (chainOfAdds ps)
        = (pySort ps).foldl (fun size pp => pp.f_shape size) (roiW / binH, roiH / binV)
    ∧ (pySort ps).Perm ps
    ∧ (pySort ps).Sorted (fun a b => a.priority ≤ b.priority)
    ∧ ∀ k : ℤ, (pySort ps).filter (fun p => p.priority = k)
        = ps.filter (fun p => p.priority = k) := by
  refine ⟨chainOfAdds_eq_pySort ps, ?_, pySort_perm ps, pySort_sorted ps,
    fun k => pySort_filter k ps⟩
  rw [getImageSize, chainOfAdds_eq_pySort ps]

/-- Flags of one inner step loop: the incoming flag on the first yielded
item, `false` on the rest, and a `false` flag threaded out (when at least
one yield happened). -/
theorem stepLoop_flags (pfx : ℕ → ℚ → List Char) (bm : List ℕ) (m : ℕ) :
    ∀ (steps : List ℚ) (start : Vec) (na : Bool),
      ((stepLoop pfx bm m steps start na).1.map SweepItem.newarea
          = if steps = [] then [] else na :: List.replicate (steps.length - 1) false)
      ∧ (stepLoop pfx bm m steps start na).2.2 = if steps = [] then na else false := by
  intro steps
  induction steps with
  | nil => intro start na; simp [stepLoop]
  | cons s rest ih =>
    intro start na
    obtain ⟨ih1, ih2⟩ := ih (start.set m s) false
    have hmap : (stepLoop pfx bm m (s :: rest) start na).1.map SweepItem.newarea
        = na :: (stepLoop pfx bm m rest (start.set m s) false).1.map SweepItem.newarea := rfl
    have hout : (stepLoop pfx bm m (s :: rest) start na).2.2
        = (stepLoop pfx bm m rest (start.set m s) false).2.2 := rfl
    constructor
    · rw [hmap, ih1]
      cases rest with
      | nil => simp
      | cons s' rest' => simp [List.replicate_succ]
    · rw [hout, ih2]
      cases rest <;> simp

/-- Flags of the mode loop over a non-empty mode list with a non-empty
step list: the incoming flag on the very first item, `false` everywhere
else, `false` threaded out. -/
theorem modeLoop_flags (pfx : ℕ → ℚ → List Char) (bm : List ℕ) (steps : List ℚ)
    (hs : steps ≠ []) :
    ∀ (modes : List ℕ) (start : Vec) (na : Bool), modes ≠ [] →
      ((modeLoop pfx bm steps modes start na).1.map SweepItem.newarea
          = na :: List.replicate (modes.length * steps.length - 1) false)
      ∧ (modeLoop pfx bm steps modes start na).2.2 = false := by
  intro modes
  induction modes with
  | nil => intro start na h; exact absurd rfl h
  | cons m ms ih =>
    intro start na _
    obtain ⟨s1, s2⟩ := stepLoop_flags pfx bm m steps start na
    rw [if_neg hs] at s1 s2
    have hslen : 1 ≤ steps.length := List.length_pos.mpr hs
    have hitems : (modeLoop pfx bm steps (m :: ms) start na).1
        = (stepLoop pfx bm m steps start na).1
          ++ (modeLoop pfx bm steps ms (stepLoop pfx bm m steps start na).2.1
              (stepLoop pfx bm m steps start na).2.2).1 := rfl
    have hout : (modeLoop pfx bm steps (m :: ms) start na).2.2
        = (modeLoop pfx bm steps ms (stepLoop pfx bm m steps start na).2.1
            (stepLoop pfx bm m steps start na).2.2).2.2 := rfl
    cases hms : ms with
    | nil =>
      subst hms
      constructor
      · rw [hitems, s2]
        simp [modeLoop, s1]
      · rw [hout, s2]
        simp [modeLoop]
    | cons m' ms' =>
      have hne : ms ≠ [] := by rw [hms]; simp
      rw [← hms]
      obtain ⟨ih1, ih2⟩ :=
        ih ((stepLoop pfx bm m steps start na).2.1) false hne
      have hq : 1 ≤ ms.length * steps.length := by
        have h1 : 1 ≤ ms.length := by rw [hms]; simp
        exact Nat.one_le_iff_ne_zero.mpr (Nat.mul_ne_zero (by omega) (by omega))
      constructor
      · rw [hitems, s2, List.map_append, s1, ih1]
        have hrep : (false :: List.replicate (ms.length * steps.length - 1) false : List Bool)
            = List.replicate (ms.length * steps.length) false := by
          rw [← List.replicate_succ]
          congr 1
          omega
        have hlen : steps.length - 1 + ms.length * steps.length
            = (m :: ms).length * steps.length - 1 := by
          simp only [List.length_cons]
          have : (ms.length + 1) * steps.length
              = ms.length * steps.length + steps.length := by ring
          omega
        rw [List.cons_append, hrep, ← List.replicate_add, hlen]
      · rw [hout, s2]
        exact ih2

/-- The `is_new_area` pattern the spec describes, per area block: `false`
for the whole first area except that the incoming flag is reproduced on
its first item, and for every area after the first a single `true` on its
first yielded item followed by `false` on the remaining `per - 1` items. -/
def newAreaPattern : ℕ → ℕ → Bool → List Bool
  | 0, _, _ => []
  | k + 1, per, first => (first :: List.replicate (per - 1) false) ++ newAreaPattern k per true

/-- Flags of dsDataCollection's area loop. -/
theorem areaLoopC_flags (bm modes : List ℕ) (steps : List ℚ)
    (hm : modes ≠ []) (hs : steps ≠ []) :
    ∀ (k area : ℕ) (start : Vec) (na : Bool),
      (areaLoopC bm modes steps k area start na).map SweepItem.newarea
        = newAreaPattern k (modes.length * steps.length) na := by
  intro k
  induction k with
  | zero => intro area start na; rfl
  | succ k ih =>
    intro area start na
    obtain ⟨m1, _m2⟩ := modeLoop_flags (fun m s => fprefixC area m s) bm steps hs modes start na hm
    simp only [areaLoopC, List.map_append, m1, ih (area + 1), newAreaPattern]

/-- Flags of dsDataHWAT's area loop: for a first area with index `0` the
incoming flag is used; any later area forces the flag to `true`. -/
theorem areaLoopH_flags (areasTotal : ℕ) (bm modes : List ℕ) (steps : List ℚ)
    (hm : modes ≠ []) (hs : steps ≠ []) :
    ∀ (k area : ℕ) (start : Vec) (na : Bool),
      (areaLoopH areasTotal bm modes steps k area start na).map SweepItem.newarea
        = newAreaPattern k (modes.length * steps.length) (if area = 0 then na else true) := by
  intro k
  induction k with
  | zero => intro area start na; rfl
  | succ k ih =>
    intro area start na
    obtain ⟨m1, m2⟩ := modeLoop_flags (fun m s => fprefixH areasTotal area m s) bm steps hs
      modes start (if area = 0 then na else true) hm
    simp only [areaLoopH, List.map_append, m1, m2, ih (area + 1), newAreaPattern,
      if_neg (Nat.succ_ne_zero area)]

/-- C6: in both generator variants, with at least one area and non-empty
applied modes and steps, `is_new_area` is `False` on the very first item
of the whole sequence and `True` exactly on the first yielded item of each
area after the first, `False` everywhere else — the two variants agree. -/
theorem generateAbb_newarea_spec (bm modes : List ℕ) (steps : List ℚ) (areas : ℕ)
    (hm : modes ≠ []) (hs : steps ≠ []) (_ha : 1 ≤ areas) :
    (generateAbbC bm modes steps areas).map SweepItem.newarea
        = newAreaPattern areas (modes.length * steps.length) false
    ∧ (generateAbbH bm modes steps areas).map SweepItem.newarea
        = newAreaPattern areas (modes.length * steps.length) false := by
  constructor
  · exact areaLoopC_flags bm modes steps hm hs areas 0 (startVec bm modes) false
  · have := areaLoopH_flags areas bm modes steps hm hs areas 0 (startVec bm modes) false
    simpa using this

/-- Witness for `generateAbb_newarea_spec`: two areas, one mode, one step. -/
theorem generateAbb_newarea_spec_witness :
    ([4] : List ℕ) ≠ [] ∧ ([1] : List ℚ) ≠ [] ∧ 1 ≤ 2
    ∧ (generateAbbC [4, 5] [4] [1] 2).map SweepItem.newarea
        = newAreaPattern 2 (([4] : List ℕ).length * ([1] : List ℚ).length) false
    ∧ (generateAbbH [4, 5] [4] [1] 2).map SweepItem.newarea
        = newAreaPattern 2 (([4] : List ℕ).length * ([1] : List ℚ).length) false :=
  ⟨by decide, by decide, by decide,
    (generateAbb_newarea_spec [4, 5] [4] [1] 2 (by decide) (by decide) (by decide)).1,
    (generateAbb_newarea_spec [4, 5] [4] [1] 2 (by decide) (by decide) (by decide)).2⟩

/-! ### Decimal rendering and file-prefix injectivity -/

/-- Every digit the fuelled digit extractor produces is below 10. -/
theorem natDigitsRev_lt : ∀ (fuel n d : ℕ), d ∈ natDigitsRev fuel n → d < 10 := by
  intro fuel
  induction fuel with
  | zero => intro n d h; simp [natDigitsRev] at h
  | succ fuel ih =>
    intro n d h
    match n with
    | 0 => simp [natDigitsRev] at h
    | n + 1 =>
      rw [natDigitsRev] at h
      rcases List.mem_cons.mp h with rfl | h'
      · exact Nat.mod_lt _ (by norm_num)
      · exact ih _ d h'

/-- The fuelled digit extractor is exact: folding the digits back with base
10 recovers the number, provided the fuel covers it. -/
theorem ofDigits_natDigitsRev : ∀ (fuel n : ℕ), n ≤ fuel →
    Nat.ofDigits 10 (natDigitsRev fuel n) = n := by
  intro fuel
  induction fuel with
  | zero =>
    intro n h
    have hn : n = 0 := by omega
    subst hn
    simp [natDigitsRev, Nat.ofDigits_nil]
  | succ fuel ih =>
    intro n h
    match n with
    | 0 => simp [natDigitsRev, Nat.ofDigits_nil]
    | n + 1 =>
      rw [natDigitsRev, Nat.ofDigits_cons, ih ((n + 1) / 10) (by
        have := Nat.div_lt_self (Nat.succ_pos n) (by norm_num : 1 < 10)
        omega)]
      omega

/-- Injectivity of `Nat.digitChar` on digits. -/
theorem digitChar_inj : ∀ d, d < 10 → ∀ e, e < 10 →
    Nat.digitChar d = Nat.digitChar e → d = e := by decide

/-- Digit characters are never the separator letters of the prefixes. -/
theorem digitChar_not_sep : ∀ d, d < 10 →
    Nat.digitChar d ≠ 'A' ∧ Nat.digitChar d ≠ 'S' := by decide

/-- Mapping `Nat.digitChar` over digit lists is injective. -/
theorem map_digitChar_inj : ∀ (L₁ L₂ : List ℕ), (∀ d ∈ L₁, d < 10) →
    (∀ d ∈ L₂, d < 10) → L₁.map Nat.digitChar = L₂.map Nat.digitChar → L₁ = L₂ := by
  intro L₁
  induction L₁ with
  | nil =>
    intro L₂ _ _ h
    cases L₂ with
    | nil => rfl
    | cons e u => simp at h
  | cons d t ih =>
    intro L₂ h1 h2 h
    cases L₂ with
    | nil => simp at h
    | cons e u =>
      simp only [List.map_cons, List.cons.injEq] at h
      have hd := digitChar_inj d (h1 d (by simp)) e (h2 e (by simp)) h.1
      have ht := ih u (fun x hx => h1 x (List.mem_cons_of_mem d hx))
        (fun x hx => h2 x (List.mem_cons_of_mem e hx)) h.2
      rw [hd, ht]

/-- No character of a decimal rendering is a separator letter. -/
theorem natChars_mem_ne (n : ℕ) : ∀ c ∈ natChars n, c ≠ 'A' ∧ c ≠ 'S' := by
  intro c hc
  unfold natChars at hc
  by_cases hn : n = 0
  · rw [if_pos hn] at hc
    simp only [List.mem_singleton] at hc
    subst hc
    exact ⟨by decide, by decide⟩
  · rw [if_neg hn, List.mem_reverse] at hc
    obtain ⟨d, hd, rfl⟩ := List.mem_map.mp hc
    exact digitChar_not_sep d (natDigitsRev_lt n n d hd)

/-- A nonzero number does not render as `"0"`. -/
theorem natChars_ne_zero_render (n : ℕ) (hn : n ≠ 0) : natChars n ≠ ['0'] := by
  intro h
  rw [natChars, if_neg hn] at h
  have h' : (natDigitsRev n n).map Nat.digitChar = ['0'] := by
    have := congrArg List.reverse h
    simpa using this
  have hL : natDigitsRev n n = [0] := by
    cases hd : natDigitsRev n n with
    | nil => rw [hd] at h'; simp at h'
    | cons d L =>
      rw [hd] at h'
      cases L with
      | nil =>
        simp only [List.map_cons, List.map_nil, List.cons.injEq, and_true] at h'
        have hdd : d < 10 := natDigitsRev_lt n n d (by rw [hd]; simp)
        have : d = 0 := digitChar_inj d hdd 0 (by norm_num) (by simpa using h')
        rw [this]
      | cons e M => simp at h'
  have hof := ofDigits_natDigitsRev n n le_rfl
  rw [hL] at hof
  simp [Nat.ofDigits_cons, Nat.ofDigits_nil] at hof
  exact hn hof.symm

/-- Decimal rendering is injective. -/
theorem natChars_inj (m n : ℕ) (h : natChars m = natChars n) : m = n := by
  by_cases hm : m = 0 <;> by_cases hn : n = 0
  · rw [hm, hn]
  · exact absurd h.symm (by rw [hm]; exact fun hc => natChars_ne_zero_render n hn (by
      rw [hc]; rfl))
  · exact absurd h (by rw [hn]; exact fun hc => natChars_ne_zero_render m hm (by
      rw [hc]; rfl))
  · rw [natChars, if_neg hm, natChars, if_neg hn] at h
    have h2 : (natDigitsRev m m).map Nat.digitChar = (natDigitsRev n n).map Nat.digitChar :=
      List.reverse_inj.mp h
    have h3 := map_digitChar_inj _ _ (fun d hd => natDigitsRev_lt m m d hd)
      (fun d hd => natDigitsRev_lt n n d hd) h2
    have hm' := ofDigits_natDigitsRev m m le_rfl
    have hn' := ofDigits_natDigitsRev n n le_rfl
    rw [← hm', ← hn', h3]

/-- Splitting at a separator character missing from both prefixes is
unambiguous. -/
theorem append_sep_inj (c : Char) : ∀ (l₁ l₂ r₁ r₂ : List Char), c ∉ l₁ → c ∉ l₂ →
    l₁ ++ c :: r₁ = l₂ ++ c :: r₂ → l₁ = l₂ ∧ r₁ = r₂ := by
  intro l₁
  induction l₁ with
  | nil =>
    intro l₂ r₁ r₂ _ h2 h
    cases l₂ with
    | nil => simpa using h
    | cons b u =>
      exfalso
      simp only [List.nil_append, List.cons_append, List.cons.injEq] at h
      exact h2 (by rw [h.1]; exact List.mem_cons_self b u)
  | cons a t ih =>
    intro l₂ r₁ r₂ h1 h2 h
    cases l₂ with
    | nil =>
      exfalso
      simp only [List.cons_append, List.nil_append, List.cons.injEq] at h
      exact h1 (by rw [← h.1]; exact List.mem_cons_self a t)
    | cons b u =>
      simp only [List.cons_append, List.cons.injEq] at h
      obtain ⟨rfl, h'⟩ := h
      have h1' : c ∉ t := fun hc => h1 (List.mem_cons_of_mem a hc)
      have h2' : c ∉ u := fun hc => h2 (List.mem_cons_of_mem a hc)
      obtain ⟨ht, hr⟩ := ih u r₁ r₂ h1' h2' h'
      exact ⟨by rw [ht], hr⟩

/-- The collection-variant prefix in fully right-nested form. -/
theorem fprefixC_canon (a m : ℕ) (s : ℚ) :
    fprefixC a m s
      = 'A' :: (natChars a ++ ('A' :: (natChars m ++ ('S' :: (fmt1 s ++ ['_']))))) := by
  unfold fprefixC
  simp [List.cons_append, List.append_assoc]

/-- The HWAT-variant prefix in fully right-nested form. -/
theorem fprefixH_canon (R a m : ℕ) (s : ℚ) :
    fprefixH R a m s
      = 'R' :: (natChars R ++ ('A' :: (natChars a
          ++ ('A' :: (natChars m ++ ('S' :: (fmt1 s ++ ['_']))))))) := by
  unfold fprefixH
  simp [List.cons_append, List.append_assoc]

/-- Absence of the separators in renderings, in the form the split lemma
needs. -/
theorem sepA_not_mem_natChars (n : ℕ) : 'A' ∉ natChars n :=
  fun hc => (natChars_mem_ne n 'A' hc).1 rfl

theorem sepS_not_mem_natChars (n : ℕ) : 'S' ∉ natChars n :=
  fun hc => (natChars_mem_ne n 'S' hc).2 rfl

/-- The collection-variant prefix collides exactly when area, mode and the
rounded step rendering agree. -/
theorem fprefixC_eq_iff (a m a' m' : ℕ) (s s' : ℚ) :
    fprefixC a m s = fprefixC a' m' s' ↔ a = a' ∧ m = m' ∧ fmt1 s = fmt1 s' := by
  constructor
  · intro h
    rw [fprefixC_canon, fprefixC_canon] at h
    simp only [List.cons.injEq, true_and] at h
    obtain ⟨h1, h2⟩ := append_sep_inj 'A' _ _ _ _
      (sepA_not_mem_natChars a) (sepA_not_mem_natChars a') h
    obtain ⟨h3, h4⟩ := append_sep_inj 'S' _ _ _ _
      (sepS_not_mem_natChars m) (sepS_not_mem_natChars m') h2
    exact ⟨natChars_inj _ _ h1, natChars_inj _ _ h3, List.append_cancel_right h4⟩
  · rintro ⟨rfl, rfl, hf⟩
    rw [fprefixC_canon, fprefixC_canon, hf]

/-- The HWAT-variant prefix collides exactly when rep count, area, mode and
the rounded step rendering agree. -/
theorem fprefixH_eq_iff (R a m R' a' m' : ℕ) (s s' : ℚ) :
    fprefixH R a m s = fprefixH R' a' m' s' ↔
      R = R' ∧ a = a' ∧ m = m' ∧ fmt1 s = fmt1 s' := by
  constructor
  · intro h
    rw [fprefixH_canon, fprefixH_canon] at h
    simp only [List.cons.injEq, true_and] at h
    obtain ⟨h0, h1⟩ := append_sep_inj 'A' _ _ _ _
      (sepA_not_mem_natChars R) (sepA_not_mem_natChars R') h
    obtain ⟨h2, h3⟩ := append_sep_inj 'A' _ _ _ _
      (sepA_not_mem_natChars a) (sepA_not_mem_natChars a') h1
    obtain ⟨h4, h5⟩ := append_sep_inj 'S' _ _ _ _
      (sepS_not_mem_natChars m) (sepS_not_mem_natChars m') h3
    exact ⟨natChars_inj _ _ h0, natChars_inj _ _ h2, natChars_inj _ _ h4,
      List.append_cancel_right h5⟩
  · rintro ⟨rfl, rfl, rfl, hf⟩
    rw [fprefixH_canon, fprefixH_canon, hf]

/-- C9 (amended): the file prefixes encode `(area, applied_mode, step)`
only through the step's one-decimal rendering — two triples of one sweep
collide iff their areas and modes agree and their steps render identically
at one decimal place; in particular prefixes differ whenever the areas or
modes differ, but distinct steps with the same `%.1f` rendering collide. -/
theorem fprefix_encoding_characterization :
    (∀ (a m a' m' : ℕ) (s s' : ℚ),
        fprefixC a m s = fprefixC a' m' s' ↔ a = a' ∧ m = m' ∧ fmt1 s = fmt1 s')
    ∧ ∀ (R a m R' a' m' : ℕ) (s s' : ℚ),
        fprefixH R a m s = fprefixH R' a' m' s' ↔
          R = R' ∧ a = a' ∧ m = m' ∧ fmt1 s = fmt1 s' :=
  ⟨fprefixC_eq_iff, fprefixH_eq_iff⟩

/-- A negative value whose magnitude rounds to zero tenths renders as
`-0.0`. -/
theorem fmt1_neg_zero (q : ℚ) (hq : q < 0) (hr : roundTenths q = 0) :
    fmt1 q = ['-', '0', '.', '0'] := by
  simp only [fmt1, hr, if_pos hq]
  rfl

/-- Rounding of `-0.01` gives zero tenths. -/
theorem roundTenths_neg_centi : roundTenths (-(1 / 100) : ℚ) = 0 := by
  have habs : |(-(1 / 100) : ℚ)| * 10 = 1 / 10 := by
    rw [abs_neg, abs_of_nonneg (by norm_num : (0 : ℚ) ≤ 1 / 100)]
    norm_num
  simp only [roundTenths, habs]
  norm_num

/-- Rounding of `-0.005` gives zero tenths. -/
theorem roundTenths_neg_halfcenti : roundTenths (-(1 / 200) : ℚ) = 0 := by
  have habs : |(-(1 / 200) : ℚ)| * 10 = 1 / 20 := by
    rw [abs_neg, abs_of_nonneg (by norm_num : (0 : ℚ) ≤ 1 / 200)]
    norm_num
  simp only [roundTenths, habs]
  norm_num

/-- The concrete sweep step list of the counterexample configuration. -/
theorem linspace_centi_eval :
    linspace (-(1 / 100) : ℚ) (1 / 100) 5
      = [-(1 / 100), -(1 / 200), 0, 1 / 200, 1 / 100] := by
  rw [linspace]
  norm_num [List.range_succ]

/-- The prefixes an inner step loop yields, structurally. -/
theorem stepLoop_prefixes (pfx : ℕ → ℚ → List Char) (bm : List ℕ) (m : ℕ) :
    ∀ (steps : List ℚ) (start : Vec) (na : Bool),
      (stepLoop pfx bm m steps start na).1.map SweepItem.fpre
        = steps.map (fun s => pfx m s) := by
  intro steps
  induction steps with
  | nil => intro start na; rfl
  | cons s rest ih =>
    intro start na
    show pfx m s :: (stepLoop pfx bm m rest (start.set m s) false).1.map SweepItem.fpre
      = pfx m s :: rest.map fun s => pfx m s
    rw [ih]

/-- With one area and one applied mode, the collection generator's yielded
prefixes are exactly the step list rendered through `fprefixC 0 m`. -/
theorem generateAbbC_single_prefixes (bm : List ℕ) (m : ℕ) (steps : List ℚ) :
    (generateAbbC bm [m] steps 1).map SweepItem.fpre
      = steps.map (fun s => fprefixC 0 m s) := by
  have h1 : generateAbbC bm [m] steps 1
      = ((stepLoop (fun mm s => fprefixC 0 mm s) bm m steps (startVec bm [m]) false).1
          ++ []) ++ [] := rfl
  rw [h1, List.append_nil, List.append_nil, stepLoop_prefixes]

/-- C9 (counterexample): with `abb_magnitude = 0.01`, `applied_step = 5`,
one area and one applied mode, the sweep's first two items have distinct
`(area, applied_mode, step)` triples — the steps `-0.01` and `-0.005`
differ — yet identical file prefixes, because `%.1f` renders both steps as
`-0.0`; the same collision occurs in the HWAT prefix format. -/
theorem fprefix_collision_counterexample :
    linspace (-(1 / 100) : ℚ) (1 / 100) 5
        = [-(1 / 100), -(1 / 200), 0, 1 / 200, 1 / 100]
    ∧ (-(1 / 100) : ℚ) ≠ -(1 / 200)
    ∧ fprefixC 0 4 (-(1 / 100)) = fprefixC 0 4 (-(1 / 200))
    ∧ fprefixH 1 0 4 (-(1 / 100)) = fprefixH 1 0 4 (-(1 / 200))
    ∧ (generateAbbC [4, 5] [4] (linspace (-(1 / 100) : ℚ) (1 / 100) 5) 1).map
          SweepItem.fpre
        = [fprefixC 0 4 (-(1 / 100)), fprefixC 0 4 (-(1 / 200)), fprefixC 0 4 0,
           fprefixC 0 4 (1 / 200), fprefixC 0 4 (1 / 100)] := by
  have hfa : fmt1 (-(1 / 100) : ℚ) = ['-', '0', '.', '0'] :=
    fmt1_neg_zero _ (by norm_num) roundTenths_neg_centi
  have hfb : fmt1 (-(1 / 200) : ℚ) = ['-', '0', '.', '0'] :=
    fmt1_neg_zero _ (by norm_num) roundTenths_neg_halfcenti
  refine ⟨linspace_centi_eval, by norm_num, ?_, ?_, ?_⟩
  · rw [fprefixC_canon, fprefixC_canon, hfa, hfb]
  · rw [fprefixH_canon, fprefixH_canon, hfa, hfb]
  · rw [linspace_centi_eval, generateAbbC_single_prefixes]
    rfl

end Cockpit
